import Mathlib

/-!
Verification of the QEM mesh-simplification core of
`packages/functions/src/simplify.ts`.

This file gives a shallow embedding, over exact rational arithmetic, of the
mesh-simplification engine: quadric accumulation, candidate-pair enumeration,
cost evaluation (`merge` / `vertexError`), the contraction loop, and mesh
rebuild, exactly as written in `simplifyPrimitive` and its helpers.

Modelling conventions, all noted where they apply:
* JavaScript `number` arithmetic is modelled by `ℚ` (exact arithmetic).
* `Math.sqrt` is irrational-valued, so the face-normal rescale branch
  (taken only when the squared length exceeds 1) receives its square-root
  function as an explicit parameter `sq : ℚ → ℚ`.  Every theorem below either
  holds for all `sq`, or is evaluated on inputs whose face normals all have
  squared length ≤ 1, so that the branch is never taken and the result does
  not depend on `sq`.
* The npm `heap` binary heap (comparator `a.cost - b.cost`) is modelled by a
  bag of pair indices from which `popMin` removes a least-cost element
  (first listed on ties); `heapify()` merely restores the heap order and is a
  no-op under this model.
* Vertex records and the `Pair.result` alias: the TS code stores object
  aliases into the `vertices` array, whose records are mutated in place but
  never replaced, so an alias is represented by the record's (immutable)
  `index` field.
-/

namespace GltfSimplify

/-!
Rational arithmetic: the standard `Rat.add`, `Rat.sub` and `Rat.mul` are
`@[irreducible]`, which prevents witnesses from being checked by `decide`.
The wrappers below compute the same values through `Rat.divInt` (which does
reduce); `qadd_eq`, `qsub_eq` and `qmul_eq` identify them with `+`, `-`, `*`
for the symbolic developments.
-/

/-- Computable `a + b` on `ℚ` (see `qadd_eq`). -/
def qadd (a b : ℚ) : ℚ := Rat.divInt (a.num * b.den + b.num * a.den) ((a.den : ℤ) * b.den)

/-- Computable `a - b` on `ℚ` (see `qsub_eq`). -/
def qsub (a b : ℚ) : ℚ := Rat.divInt (a.num * b.den - b.num * a.den) ((a.den : ℤ) * b.den)

/-- Computable `a * b` on `ℚ` (see `qmul_eq`). -/
def qmul (a b : ℚ) : ℚ := Rat.divInt (a.num * b.num) ((a.den : ℤ) * b.den)

/-- Three-component vector over exact rationals (gl-matrix `vec3`). -/
structure Vec3 where
  x : ℚ
  y : ℚ
  z : ℚ
deriving DecidableEq

/-- Four-component vector (gl-matrix `vec4`), indexed like the flat array. -/
def Vec4 : Type := Fin 4 → ℚ

/-- The 4×4 matrix type (gl-matrix `mat4` / `ndarray` view); `entry i j` is the flat
element `data[4*i + j]`, i.e. `ndarray`'s row-major `get(i, j)`. -/
def Mat4 : Type := Fin 4 → Fin 4 → ℚ

/-- The `ZERO_MAT4` constant. -/
def zeroMat4 : Mat4 := fun _ _ => 0

/-- gl-matrix `add` on `mat4`: element-wise addition. -/
def matAdd (a b : Mat4) : Mat4 := fun i j => qadd (a i j) (b i j)

/-- Build a `Vec4` from its four components. -/
def v4 (a b c d : ℚ) : Vec4 :=
  fun i => if i = 0 then a else if i = 1 then b else if i = 2 then c else d

/-- gl-matrix `subtract` on `vec3`. -/
def sub3 (a b : Vec3) : Vec3 := ⟨qsub a.x b.x, qsub a.y b.y, qsub a.z b.z⟩

/-- gl-matrix `cross`. -/
def cross3 (a b : Vec3) : Vec3 :=
  ⟨qsub (qmul a.y b.z) (qmul a.z b.y),
   qsub (qmul a.z b.x) (qmul a.x b.z),
   qsub (qmul a.x b.y) (qmul a.y b.x)⟩

/-- gl-matrix `dot` on `vec3`. -/
def dot3 (a b : Vec3) : ℚ := qadd (qadd (qmul a.x b.x) (qmul a.y b.y)) (qmul a.z b.z)

/-- gl-matrix `squaredLength`. -/
def squaredLength3 (a : Vec3) : ℚ := dot3 a a

/-- Squared Euclidean distance.  The TS code compares
`dist(p, q) < threshold` with `dist = sqrt(squaredDistance)`; for a positive
threshold this is equivalent to `squaredDistance < threshold²`, which is the
exact-rational form used here. -/
def distSq3 (a b : Vec3) : ℚ := squaredLength3 (sub3 a b)

/-- Componentwise scalar multiply (gl-matrix `multiply` with `[s, s, s]`). -/
def smul3 (s : ℚ) (a : Vec3) : Vec3 := ⟨qmul s a.x, qmul s a.y, qmul s a.z⟩

/-- gl-matrix `dot` on `vec4`. -/
def dot4 (a b : Vec4) : ℚ :=
  qadd (qadd (qadd (qmul (a 0) (b 0)) (qmul (a 1) (b 1))) (qmul (a 2) (b 2))) (qmul (a 3) (b 3))

/-- gl-matrix `transformMat4`: `out[j] = Σᵢ m[4*i + j] * p[i]`
(flat `m[4*i+j]` is `entry i j` under this file's convention). -/
def transform4 (p : Vec4) (m : Mat4) : Vec4 :=
  fun j =>
    qadd (qadd (qadd (qmul (m 0 j) (p 0)) (qmul (m 1 j) (p 1))) (qmul (m 2 j) (p 2)))
      (qmul (m 3 j) (p 3))

/-- Per-vertex attribute record: `POSITION` (always present, a 3-vector) plus
the remaining semantics as name/vector entries.  A `TANGENT` attribute is
tracked at the primitive level (see `Primitive.hasTangent`), since the code
disposes it before any vertex record is built. -/
structure Attributes where
  position : Vec3
  extra : List (String × List ℚ)
deriving DecidableEq

/-- The `Vertex` record of `simplify.ts`. -/
structure Vertex where
  index : ℕ
  pairs : List ℕ
  error : Mat4
  attributes : Attributes

/-- Default used for (unreachable, in well-formed runs) out-of-range reads. -/
def defaultVertex : Vertex :=
  { index := 0, pairs := [], error := zeroMat4
    attributes := { position := ⟨0, 0, 0⟩, extra := [] } }

/-- The `Pair` record. `result` is the surviving vertex's index (the TS code
stores an alias to the vertex record; records are mutated in place and never
replaced, so the alias is exactly the index).  The TS constructor
`{vertices, result, cost} as Pair` never sets `isSeam`, which is omitted. -/
structure Pair where
  fst : ℕ
  snd : ℕ
  result : ℕ
  cost : ℚ
deriving DecidableEq

def defaultPair : Pair := { fst := 0, snd := 0, result := 0, cost := 0 }

/-- The slice of the `@gltf-transform/core` `Primitive` contract that
`simplifyPrimitive` consumes: draw mode, morph-target count, whether a
`TANGENT` attribute is present, the per-vertex attribute buffers, and the
index buffer. -/
structure Primitive where
  mode : ℕ
  morphTargets : ℕ
  hasTangent : Bool
  attributes : List Attributes
  indices : List ℕ
deriving DecidableEq

instance {ε α : Type} [DecidableEq ε] [DecidableEq α] : DecidableEq (Except ε α) := fun x y =>
  match x, y with
  | .ok a, .ok b => if h : a = b then .isTrue (by rw [h]) else .isFalse (by simp [h])
  | .error a, .error b => if h : a = b then .isTrue (by rw [h]) else .isFalse (by simp [h])
  | .ok _, .error _ => .isFalse (by simp)
  | .error _, .ok _ => .isFalse (by simp)

/-- The `Primitive.Mode.TRIANGLES` draw mode (glTF enum value 4). -/
def trianglesMode : ℕ := 4

/-- In-place update of one list element (JS mutation of `vertices[i]`);
out-of-range indices leave the list unchanged. -/
def modifyAt {α : Type} : List α → ℕ → (α → α) → List α
  | [], _, _ => []
  | x :: xs, 0, f => f x :: xs
  | x :: xs, i + 1, f => x :: modifyAt xs i f

/-- Source `getFaceNormal`: edge vectors `v1 = c - b`, `v2 = a - b`, their cross
product, rescaled by `1 / sqrt(lengthSq)` only when `lengthSq > 1`.
`sq` models `Math.sqrt`. -/
def getFaceNormal (sq : ℚ → ℚ) (a b c : Vertex) : Vec3 :=
  let v1 := sub3 c.attributes.position b.attributes.position
  let v2 := sub3 a.attributes.position b.attributes.position
  let normal := cross3 v1 v2
  let lengthSq := squaredLength3 normal
  if 1 < lengthSq then smul3 (1 / sq lengthSq) normal else normal

/-- The symmetric outer-product quadric of a plane 4-vector.  The TS double
loop sets `error[i][j] = plane[i] * plane[j]` for every `i, j`
(lower triangle directly, upper triangle mirrored). -/
def planeQuadric (p : Vec4) : Mat4 := fun i j => qmul (p i) (p j)

/-- Homogeneous position `(x, y, z, 1)` of a vertex. -/
def homog (v : Vertex) : Vec4 :=
  v4 v.attributes.position.x v.attributes.position.y v.attributes.position.z 1

/-- Source `vertexError`: `dot(transformMat4(out, pos, quadratic), pos)`. -/
def vertexError (vertex : Vertex) (quadratic : Mat4) : ℚ :=
  dot4 (transform4 (homog vertex) quadratic) (homog vertex)

/-- Source `merge(a, b)`: sum the quadrics, evaluate both endpoints, keep the
cheaper (`aCost <= bCost` prefers `a`).  Returns the surviving vertex's
index together with the cost. -/
def mergeIdx (a b : Vertex) : ℕ × ℚ :=
  let quadratic := matAdd a.error b.error
  let aCost := vertexError a quadratic
  let bCost := vertexError b quadratic
  if aCost ≤ bCost then (a.index, aCost) else (b.index, bCost)

/-- Source `listVertices`: one fresh record per vertex, zero quadric, empty pair
list, attributes read from the primitive's buffers. -/
def listVertices (prim : Primitive) : List Vertex :=
  (List.range prim.attributes.length).map fun i =>
    { index := i, pairs := [], error := zeroMat4
      attributes := prim.attributes.getD i defaultVertex.attributes }

/-- The triangle list of a flat index buffer (`for (i; i < length; i += 3)`).
A trailing partial chunk is ignored; for a well-formed `TRIANGLES` primitive
the index count is a multiple of three. -/
def faces : List ℕ → List (ℕ × ℕ × ℕ)
  | a :: b :: c :: rest => (a, b, c) :: faces rest
  | _ => []

/-- Step 1, one triangle: build the face plane and add its outer-product
quadric into each of the three corner records in order (`for v of [a,b,c]`);
a repeated corner index receives the addition repeatedly, as in the source. -/
def addFaceQuadric (sq : ℚ → ℚ) (vs : List Vertex) (f : ℕ × ℕ × ℕ) : List Vertex :=
  let a := vs.getD f.1 defaultVertex
  let b := vs.getD f.2.1 defaultVertex
  let c := vs.getD f.2.2 defaultVertex
  let normal := getFaceNormal sq a b c
  let plane := v4 normal.x normal.y normal.z (dot3 a.attributes.position normal)
  let q := planeQuadric plane
  let vs1 := modifyAt vs f.1 fun v => { v with error := matAdd v.error q }
  let vs2 := modifyAt vs1 f.2.1 fun v => { v with error := matAdd v.error q }
  modifyAt vs2 f.2.2 fun v => { v with error := matAdd v.error q }

/-- Step 1: accumulate every face's plane quadric. -/
def accumQuadrics (sq : ℚ → ℚ) (vs : List Vertex) (indices : List ℕ) : List Vertex :=
  (faces indices).foldl (addFaceQuadric sq) vs

/-- The edge slots of the index buffer: `[[a,b],[b,c],[c,a]]` per triangle. -/
def edgeSlots (indices : List ℕ) : List (ℕ × ℕ) :=
  (faces indices).foldr (fun f acc => (f.1, f.2.1) :: (f.2.1, f.2.2) :: (f.2.2, f.1) :: acc) []

/-- Canonical unordered form of an edge slot (smaller endpoint first). -/
def canonPair (e : ℕ × ℕ) : ℕ × ℕ := if e.1 < e.2 then e else (e.2, e.1)

/-- Step 2, one edge slot: `if (indexA < indexB) vertices[indexA].pairs.push(indexB)
else vertices[indexB].pairs.push(indexA)`. -/
def pushCanonEdge (vs : List Vertex) (e : ℕ × ℕ) : List Vertex :=
  if e.1 < e.2 then modifyAt vs e.1 (fun v => { v with pairs := v.pairs ++ [e.2] })
  else modifyAt vs e.2 (fun v => { v with pairs := v.pairs ++ [e.1] })

/-- Step 2: record every triangle edge under its lower-indexed endpoint. -/
def collectEdgePairs (vs : List Vertex) (indices : List ℕ) : List Vertex :=
  (edgeSlots indices).foldl pushCanonEdge vs

/-- Step 2, proximity scan (`distanceThreshold > 0` only): for each `i` and
each `j = i-1 … 0`, pair the vertices when their distance is below the
threshold (exact form: squared distance below threshold²).  The inner `j`
always satisfies `j < i`, so the `i < j` branch of the source is dead, but it
is transcribed as written. -/
def collectProximityPairs (vs : List Vertex) (threshold : ℚ) : List Vertex :=
  (List.range vs.length).foldl
    (fun acc i =>
      ((List.range i).reverse).foldl
        (fun acc2 j =>
          let p1 := (acc2.getD i defaultVertex).attributes.position
          let p2 := (acc2.getD j defaultVertex).attributes.position
          if distSq3 p1 p2 < qmul threshold threshold then
            if i < j then modifyAt acc2 i (fun v => { v with pairs := v.pairs ++ [j] })
            else modifyAt acc2 j (fun v => { v with pairs := v.pairs ++ [i] })
          else acc2)
        acc)
    vs

/-- Step 3: one `Pair` per recorded `(i, j)` entry, in vertex order then
push order, costed by `merge(vertices[i], vertices[j])`. -/
def buildEdges (vs : List Vertex) : List Pair :=
  (List.range vs.length).foldl
    (fun acc i =>
      acc ++ (vs.getD i defaultVertex).pairs.map fun j =>
        let rc := mergeIdx (vs.getD i defaultVertex) (vs.getD j defaultVertex)
        { fst := i, snd := j, result := rc.1, cost := rc.2 })
    []

/-- Remove a least-cost element from the scheduler (the binary heap's `pop`
after a `heapify`); the first-listed element is taken on cost ties. -/
def popMin (cost : ℕ → ℚ) : List ℕ → Option (ℕ × List ℕ)
  | [] => none
  | h :: t =>
    match popMin cost t with
    | none => some (h, [])
    | some (m, rest) => if cost h ≤ cost m then some (h, t) else some (m, h :: rest)

/-- The mutable state of the contraction loop. `iters` counts loop
iterations (stale pops included); `crashed` records the `TypeError` the
source throws when `pairs.pop()` returns `undefined` on a drained heap. -/
structure LoopState where
  vertices : List Vertex
  indices : List ℕ
  edges : List Pair
  heap : List ℕ
  deletedFaces : List Bool
  deletedCount : ℕ
  iters : ℕ
  crashed : Bool

/-- Step 4, triangle scan for one face: if the face references `b`, flag it
deleted when it also references `a` (zero area after the merge), and rewrite
every `b` entry to `a`.  The flag only ever moves to `true`. -/
def rewriteFace (a b : ℕ) (f : ℕ × ℕ × ℕ) (del : Bool) : (ℕ × ℕ × ℕ) × Bool :=
  let hasB := f.1 = b ∨ f.2.1 = b ∨ f.2.2 = b
  if hasB then
    let hasA := f.1 = a ∨ f.2.1 = a ∨ f.2.2 = a
    let sub := fun x => if x = b then a else x
    ((sub f.1, sub f.2.1, sub f.2.2), del || hasA)
  else (f, del)

/-- Step 4, triangle scan over the flat index buffer and the parallel
deleted-face flags. -/
def rewriteFaces (a b : ℕ) : List ℕ → List Bool → List ℕ × List Bool
  | x :: y :: z :: rest, d :: ds =>
    let fd := rewriteFace a b (x, y, z) d
    let rs := rewriteFaces a b rest ds
    (fd.1.1 :: fd.1.2.1 :: fd.1.2.2 :: rs.1, fd.2 :: rs.2)
  | l, ds => (l, ds)

/-- Step 4, pair scan for one pair record (`edge.vertices.indexOf`, first
occurrence).  Both endpoints hit: write `a` over the `b` slot (stale
self-pair).  One endpoint hit: recompute result and cost from `vertices[a]`
and the pair's other endpoint; the stored endpoints are left as they are. -/
def updateEdge (vs : List Vertex) (a b : ℕ) (e : Pair) : Pair :=
  let iA : Option ℕ := if e.fst = a then some 0 else if e.snd = a then some 1 else none
  let iB : Option ℕ := if e.fst = b then some 0 else if e.snd = b then some 1 else none
  match iA, iB with
  | some _, some ib =>
    if ib = 0 then { e with fst := a } else { e with snd := a }
  | some ia, none =>
    let other := if ia = 0 then e.snd else e.fst
    let rc := mergeIdx (vs.getD a defaultVertex) (vs.getD other defaultVertex)
    { e with result := rc.1, cost := rc.2 }
  | none, some ib =>
    let other := if ib = 0 then e.snd else e.fst
    let rc := mergeIdx (vs.getD a defaultVertex) (vs.getD other defaultVertex)
    { e with result := rc.1, cost := rc.2 }
  | none, none => e

/-- One non-stale contraction: overwrite `a`'s attributes with the pair's
result attributes (`Object.assign` + `updateVertex`), run the triangle scan,
then the pair scan (against the already-updated vertex list), and count the
deletion.  The quadric of `a` is not touched — `merge` summed the quadrics
only to score the pair. -/
def contract (st : LoopState) (pairIdx : ℕ) (a b : ℕ) : LoopState :=
  let p := st.edges.getD pairIdx defaultPair
  let resAttrs := (st.vertices.getD p.result defaultVertex).attributes
  let vs := modifyAt st.vertices a fun v => { v with attributes := resAttrs }
  let rw := rewriteFaces a b st.indices st.deletedFaces
  let es := st.edges.map (updateEdge vs a b)
  { st with vertices := vs, indices := rw.1, deletedFaces := rw.2, edges := es
            deletedCount := st.deletedCount + 1 }

/-- Cost lookup for the scheduler: the live cost of pair record `i`. -/
def edgeCost (edges : List Pair) (i : ℕ) : ℚ := (edges.getD i defaultPair).cost


/-- Quadric built by accumulating the outer products of a list of plane
4-vectors, as the quadric builder does (`sumQuadrics [] = zeroMat4`). -/
def sumQuadrics (ps : List Vec4) : Mat4 :=
  ps.foldl (fun q p => matAdd q (planeQuadric p)) zeroMat4

/-- A quadric expressible as an accumulated sum of plane outer products. -/
def IsPlaneSum (m : Mat4) : Prop := ∃ ps : List Vec4, m = sumQuadrics ps

/-- Matrix symmetry, `Q[i][j] = Q[j][i]`. -/
def Symm (m : Mat4) : Prop := ∀ i j, m i j = m j i

/-- Three pairwise-distinct vertex indices. -/
def triOk (x y z : ℕ) : Bool := !(x == y) && !(y == z) && !(x == z)

/-- Every triangle of a flat index buffer has three pairwise-distinct
vertex indices. -/
def facesDistinct : List ℕ → Bool
  | x :: y :: z :: rest => triOk x y z && facesDistinct rest
  | _ => true

/-- Every non-deleted triangle (per the parallel flag list) has three
pairwise-distinct vertex indices. -/
def liveFacesOk : List ℕ → List Bool → Bool
  | x :: y :: z :: rest, d :: ds => (d || triOk x y z) && liveFacesOk rest ds
  | _, _ => true

/-- The index buffer of a simplification outcome (empty on the thrown
`TypeError`). -/
def outIndices (r : Except String (Primitive × List String)) : List ℕ :=
  match r with
  | .ok (p, _) => p.indices
  | .error _ => []

/-- Step 4, the contraction loop, fuel-indexed for structural recursion.
The loop guard is `while (n - deletedCount > targetCount)`; a drained heap
makes `pop()` return `undefined` and the source throw, recorded by
`crashed := true`.  Every iteration pops exactly one heap entry, so any fuel
exceeding the heap size never runs out (see `loopGo_fuel_irrel`). -/
def loopGo (n targetCount : ℕ) : ℕ → LoopState → LoopState
  | 0, st => st
  | fuel + 1, st =>
    if n - st.deletedCount ≤ targetCount then st
    else
      match popMin (edgeCost st.edges) st.heap with
      | none => { st with crashed := true }
      | some (pairIdx, heap') =>
        let p := st.edges.getD pairIdx defaultPair
        if p.fst = p.snd then
          loopGo n targetCount fuel { st with heap := heap', iters := st.iters + 1 }
        else
          loopGo n targetCount fuel
            (contract { st with heap := heap', iters := st.iters + 1 } pairIdx p.fst p.snd)

/-- The contraction loop: fuel `heap.length + 1` is enough for every
iteration up to and including the one that finds the heap drained. -/
def loop (n targetCount : ℕ) (st : LoopState) : LoopState :=
  loopGo n targetCount (st.heap.length + 1) st

/-- Step 5: copy forward the three indices of every non-deleted face, in
order.  (The source reaches the same list through `slice` plus in-place
compaction.) -/
def rebuildIndices : List ℕ → List Bool → List ℕ
  | x :: y :: z :: rest, d :: ds =>
    if d then rebuildIndices rest ds else x :: y :: z :: rebuildIndices rest ds
  | _, _ => []

/-- JavaScript `Math.round` (half toward +∞) on exact rationals,
computably (see `jsRound_eq`). -/
def jsRound (q : ℚ) : ℤ := (qadd q (Rat.divInt 1 2)).floor

structure SimplifyOpts where
  target : ℚ
  distanceThreshold : ℚ

def morphWarning : String :=
  "simplify: Skipping primitive; simplifying morph targets not supported."

def modeWarning : String :=
  "simplify: Skipping primitive; non-TRIANGLES modes not supported."

def tangentWarning : String :=
  "simplify: Removing tangents. Regenerate with tangents if necessary."

def crashMessage : String :=
  "TypeError: Cannot read properties of undefined (reading vertices)"

/-- The vertex list right before pair selection (steps: filter, `listVertices`,
quadric accumulation). -/
def simplifyQuadrics (sq : ℚ → ℚ) (prim : Primitive) : List Vertex :=
  accumQuadrics sq (listVertices prim) prim.indices

/-- The vertex list after pair selection (edge pairs, then the proximity scan
when the threshold is positive). -/
def simplifyVertices (sq : ℚ → ℚ) (prim : Primitive) (opts : SimplifyOpts) : List Vertex :=
  let vs := collectEdgePairs (simplifyQuadrics sq prim) prim.indices
  if 0 < opts.distanceThreshold then collectProximityPairs vs opts.distanceThreshold else vs

/-- The initial pair records (step 3). -/
def simplifyEdges (sq : ℚ → ℚ) (prim : Primitive) (opts : SimplifyOpts) : List Pair :=
  buildEdges (simplifyVertices sq prim opts)

/-- The loop bound `targetCount = Math.round(n * options.target)`, `n` the vertex count. -/
def simplifyTargetCount (prim : Primitive) (opts : SimplifyOpts) : ℕ :=
  (jsRound (qmul (prim.attributes.length : ℚ) opts.target)).toNat

/-- The contraction loop's initial state. -/
def initialState (sq : ℚ → ℚ) (prim : Primitive) (opts : SimplifyOpts) : LoopState :=
  let edges := simplifyEdges sq prim opts
  { vertices := simplifyVertices sq prim opts
    indices := prim.indices
    edges := edges
    heap := List.range edges.length
    deletedFaces := List.replicate (prim.indices.length / 3) false
    deletedCount := 0
    iters := 0
    crashed := false }

/-- The contraction loop's final state for a triangle-list primitive. -/
def simplifyState (sq : ℚ → ℚ) (prim : Primitive) (opts : SimplifyOpts) : LoopState :=
  loop prim.attributes.length (simplifyTargetCount prim opts) (initialState sq prim opts)

/-- Source `simplifyPrimitive`.  Pre-filters (morph targets, draw mode, tangent
disposal), then the five algorithm steps; the value is the mutated primitive
together with the warnings emitted, or the thrown `TypeError` on a drained
heap.  The final attribute buffers equal the vertex records' attributes:
every in-loop attribute mutation is immediately written back by
`updateVertex`, and untouched records were read from the buffers unchanged. -/
def simplifyPrimitive (sq : ℚ → ℚ) (prim : Primitive) (opts : SimplifyOpts) :
    Except String (Primitive × List String) :=
  if 0 < prim.morphTargets then .ok (prim, [morphWarning])
  else if prim.mode ≠ trianglesMode then .ok (prim, [modeWarning])
  else
    let prim1 := if prim.hasTangent then { prim with hasTangent := false } else prim
    let warns := if prim.hasTangent then [tangentWarning] else []
    let st := simplifyState sq prim1 opts
    if st.crashed then .error crashMessage
    else
      .ok ({ prim1 with
              indices := rebuildIndices st.indices st.deletedFaces
              attributes := st.vertices.map (·.attributes) }, warns)

/-!
Concrete inputs.  `sqrtStub` stands in for `Math.sqrt`; every concrete run
below only ever produces face normals of squared length ≤ 1 (coordinates are
0 or 1/10), so the rescale branch that would consult it is never taken and
the runs do not depend on it.
-/

def sqrtStub : ℚ → ℚ := fun _ => 0

def attrsOf (p : Vec3) : Attributes := { position := p, extra := [] }

def tenth : ℚ := Rat.divInt 1 10

/-- A single triangle with vertices at the origin, (1/10, 0, 0) and
(0, 1/10, 0). -/
def demoTriangle : Primitive :=
  { mode := 4, morphTargets := 0, hasTangent := false
    attributes := [attrsOf ⟨0, 0, 0⟩, attrsOf ⟨tenth, 0, 0⟩, attrsOf ⟨0, tenth, 0⟩]
    indices := [0, 1, 2] }

/-- Target ratio 2/3 on `demoTriangle`: `targetCount = round(3·2/3) = 2`,
so the loop performs exactly one contraction, of the least-cost pair
`(0, 1)`. -/
def demoOpts : SimplifyOpts := { target := Rat.divInt 2 3, distanceThreshold := 0 }

/-- A fully degenerate one-vertex triangle list: indices `[0, 0, 0]`. -/
def degeneratePrim : Primitive :=
  { mode := 4, morphTargets := 0, hasTangent := false
    attributes := [attrsOf ⟨0, 0, 0⟩], indices := [0, 0, 0] }

/-- Target 2/5 on one vertex: `targetCount = round(1·2/5) = 0`, so the loop
keeps running while every heap entry is a stale self-pair `(0, 0)`. -/
def degenerateOpts : SimplifyOpts := { target := Rat.divInt 2 5, distanceThreshold := 0 }

/-- Two vertices whose only triangle `(0, 0, 1)` is degenerate in the
input. -/
def degenerateFacePrim : Primitive :=
  { mode := 4, morphTargets := 0, hasTangent := false
    attributes := [attrsOf ⟨0, 0, 0⟩, attrsOf ⟨tenth, 0, 0⟩]
    indices := [0, 0, 1] }

/-- Target 1: `targetCount = n`, so the loop performs no contraction and the
rebuild runs on the untouched state. -/
def keepAllOpts : SimplifyOpts := { target := 1, distanceThreshold := 0 }

/-- Two triangles `(0,1,2)` and `(1,0,3)` sharing the edge `{0, 1}`. -/
def sharedEdgePrim : Primitive :=
  { mode := 4, morphTargets := 0, hasTangent := false
    attributes := [attrsOf ⟨0, 0, 0⟩, attrsOf ⟨tenth, 0, 0⟩,
                   attrsOf ⟨0, tenth, 0⟩, attrsOf ⟨0, 0, tenth⟩]
    indices := [0, 1, 2, 1, 0, 3] }

/-- A primitive using draw mode 0 (`POINTS`), not `TRIANGLES`. -/
def pointsPrim : Primitive :=
  { mode := 0, morphTargets := 0, hasTangent := true
    attributes := [attrsOf ⟨0, 0, 0⟩, attrsOf ⟨tenth, 0, 0⟩, attrsOf ⟨0, tenth, 0⟩]
    indices := [0, 1, 2] }


/-!
General lemmas.
-/

theorem qadd_eq (a b : ℚ) : qadd a b = a + b := by
  rw [qadd, Rat.add_def', ← Int.natCast_mul, Rat.divInt_ofNat]

theorem qsub_eq (a b : ℚ) : qsub a b = a - b := by
  rw [qsub, Rat.sub_def', ← Int.natCast_mul, Rat.divInt_ofNat]

theorem qmul_eq (a b : ℚ) : qmul a b = a * b := by
  rw [qmul, Rat.mul_def, Rat.normalize_eq_mkRat, ← Int.natCast_mul, Rat.divInt_ofNat]

theorem jsRound_eq (q : ℚ) : jsRound q = ⌊q + 1 / 2⌋ := by
  rw [jsRound, qadd_eq, Rat.floor_def', ← Rat.floor_def]
  norm_num [Rat.divInt_eq_div]

theorem popMin_eq_none {cost : ℕ → ℚ} :
    ∀ {l : List ℕ}, popMin cost l = none → l = [] := by
  intro l h
  cases l with
  | nil => rfl
  | cons x xs =>
    rcases hx : popMin cost xs with _ | ⟨m, r⟩
    · simp [popMin, hx] at h
    · by_cases hc : cost x ≤ cost m <;> simp [popMin, hx, hc] at h

theorem popMin_length {cost : ℕ → ℚ} :
    ∀ {l : List ℕ} {m : ℕ} {rest : List ℕ},
      popMin cost l = some (m, rest) → rest.length + 1 = l.length := by
  intro l
  induction l with
  | nil => intro m rest h; simp [popMin] at h
  | cons h t ih =>
    intro m rest hp
    rcases ht : popMin cost t with _ | ⟨m', rest'⟩
    · obtain rfl := popMin_eq_none ht
      simp [popMin] at hp
      simp [← hp.2]
    · by_cases hc : cost h ≤ cost m'
      · simp [popMin, ht, hc] at hp
        simp [← hp.2]
      · simp [popMin, ht, hc] at hp
        have h2 := ih ht
        rw [← hp.2]
        simp only [List.length_cons]
        omega


theorem length_modifyAt {α : Type} (f : α → α) :
    ∀ (l : List α) (i : ℕ), (modifyAt l i f).length = l.length := by
  intro l
  induction l with
  | nil => intro i; rfl
  | cons x xs ih => intro i; cases i <;> simp [modifyAt, ih]

theorem getD_modifyAt {α : Type} (f : α → α) (d : α) :
    ∀ (l : List α) (i j : ℕ),
      (modifyAt l i f).getD j d =
        if i = j ∧ j < l.length then f (l.getD j d) else l.getD j d := by
  intro l
  induction l with
  | nil => intro i j; simp [modifyAt]
  | cons x xs ih =>
    intro i j
    cases i with
    | zero =>
      cases j with
      | zero => simp [modifyAt]
      | succ k => simp [modifyAt]
    | succ i' =>
      cases j with
      | zero => simp [modifyAt]
      | succ k => simpa [modifyAt, Nat.succ_lt_succ_iff] using ih i' k

theorem contract_heap (st : LoopState) (pi a b : ℕ) : (contract st pi a b).heap = st.heap := rfl

theorem contract_deletedCount (st : LoopState) (pi a b : ℕ) :
    (contract st pi a b).deletedCount = st.deletedCount + 1 := rfl

theorem contract_crashed (st : LoopState) (pi a b : ℕ) :
    (contract st pi a b).crashed = st.crashed := rfl

theorem contract_iters (st : LoopState) (pi a b : ℕ) :
    (contract st pi a b).iters = st.iters := rfl

/-- If the loop exits without crashing, having started at or above the
target, it stops exactly at the target: `n - deletedCount = targetCount`. -/
theorem loopGo_exit {n t : ℕ} :
    ∀ (fuel : ℕ) (st : LoopState), st.heap.length < fuel →
      t ≤ n - st.deletedCount → (loopGo n t fuel st).crashed = false →
      n - (loopGo n t fuel st).deletedCount = t := by
  intro fuel
  induction fuel with
  | zero => intro st h _ _; omega
  | succ fuel ih =>
    intro st hfuel hle hcr
    by_cases hguard : n - st.deletedCount ≤ t
    · simp only [loopGo, if_pos hguard] at hcr ⊢
      omega
    · rcases hpm : popMin (edgeCost st.edges) st.heap with _ | ⟨pi, heap'⟩
      · simp only [loopGo, if_neg hguard, hpm] at hcr
        simp at hcr
      · have hlen := popMin_length hpm
        by_cases hstale : (st.edges.getD pi defaultPair).fst = (st.edges.getD pi defaultPair).snd
        · simp only [loopGo, if_neg hguard, hpm, if_pos hstale] at hcr ⊢
          exact ih _ (by simp; omega) (by simpa using hle) hcr
        · simp only [loopGo, if_neg hguard, hpm, if_neg hstale] at hcr ⊢
          refine ih _ ?_ ?_ hcr
          · rw [contract_heap]; simp; omega
          · rw [contract_deletedCount]; simp; omega

/-- Each loop iteration pops exactly one heap entry and pushes none:
`iters + |heap|` is invariant. -/
theorem loopGo_conserve {n t : ℕ} :
    ∀ (fuel : ℕ) (st : LoopState), st.heap.length < fuel →
      (loopGo n t fuel st).iters + (loopGo n t fuel st).heap.length
        = st.iters + st.heap.length := by
  intro fuel
  induction fuel with
  | zero => intro st h; omega
  | succ fuel ih =>
    intro st hfuel
    by_cases hguard : n - st.deletedCount ≤ t
    · simp only [loopGo, if_pos hguard]
    · rcases hpm : popMin (edgeCost st.edges) st.heap with _ | ⟨pi, heap'⟩
      · simp only [loopGo, if_neg hguard, hpm]
      · have hlen := popMin_length hpm
        by_cases hstale : (st.edges.getD pi defaultPair).fst = (st.edges.getD pi defaultPair).snd
        · simp only [loopGo, if_neg hguard, hpm, if_pos hstale]
          set st' : LoopState := { st with heap := heap', iters := st.iters + 1 } with hst'
          have e1 : st'.iters = st.iters + 1 := rfl
          have e2 : st'.heap.length = heap'.length := rfl
          have h1 := ih st' (by omega)
          omega
        · simp only [loopGo, if_neg hguard, hpm, if_neg hstale]
          set st' : LoopState := contract { st with heap := heap', iters := st.iters + 1 } pi
            (st.edges.getD pi defaultPair).fst (st.edges.getD pi defaultPair).snd with hst'
          have e1 : st'.iters = st.iters + 1 := rfl
          have e2 : st'.heap.length = heap'.length := rfl
          have h1 := ih st' (by omega)
          omega


theorem loop_exit {n t : ℕ} (st : LoopState) (hle : t ≤ n - st.deletedCount)
    (hok : (loop n t st).crashed = false) : n - (loop n t st).deletedCount = t :=
  loopGo_exit (st.heap.length + 1) st (Nat.lt_succ_self _) hle hok

theorem loop_conserve {n t : ℕ} (st : LoopState) :
    (loop n t st).iters + (loop n t st).heap.length = st.iters + st.heap.length :=
  loopGo_conserve (st.heap.length + 1) st (Nat.lt_succ_self _)

/-- With `target ≤ 1`, `targetCount = round(n·target)` never exceeds `n`. -/
theorem simplifyTargetCount_le (prim : Primitive) (opts : SimplifyOpts)
    (h1 : opts.target ≤ 1) : simplifyTargetCount prim opts ≤ prim.attributes.length := by
  unfold simplifyTargetCount
  rw [jsRound_eq, qmul_eq]
  set n := prim.attributes.length with hn
  have hmul : (n : ℚ) * opts.target ≤ n := by
    calc (n : ℚ) * opts.target ≤ (n : ℚ) * 1 :=
          mul_le_mul_of_nonneg_left h1 (by positivity)
    _ = n := mul_one _
  have hfloor : ⌊(n : ℚ) * opts.target + 1 / 2⌋ < (n : ℤ) + 1 := by
    apply Int.floor_lt.mpr
    push_cast
    linarith
  omega


theorem triList_induction {motive : List ℕ → Prop}
    (h0 : motive []) (h1 : ∀ x, motive [x]) (h2 : ∀ x y, motive [x, y])
    (h3 : ∀ x y z rest, motive rest → motive (x :: y :: z :: rest)) :
    ∀ l, motive l
  | [] => h0
  | [x] => h1 x
  | [x, y] => h2 x y
  | x :: y :: z :: rest => h3 x y z rest (triList_induction h0 h1 h2 h3 rest)

theorem triPair_induction {motive : List ℕ → List Bool → Prop}
    (h0 : ∀ ds, motive [] ds) (h1 : ∀ x ds, motive [x] ds) (h2 : ∀ x y ds, motive [x, y] ds)
    (hnil : ∀ x y z rest, motive (x :: y :: z :: rest) [])
    (h3 : ∀ x y z rest d ds, motive rest ds → motive (x :: y :: z :: rest) (d :: ds)) :
    ∀ l ds, motive l ds
  | [], ds => h0 ds
  | [x], ds => h1 x ds
  | [x, y], ds => h2 x y ds
  | x :: y :: z :: _, [] => hnil _ _ _ _
  | x :: y :: z :: rest, d :: ds =>
    h3 x y z rest d ds (triPair_induction h0 h1 h2 hnil h3 rest ds)

theorem rewriteFace_preserves {a b : ℕ} (hab : a ≠ b) (x y z : ℕ) (d : Bool)
    (h : (d || triOk x y z) = true) :
    ((rewriteFace a b (x, y, z) d).2
        || triOk (rewriteFace a b (x, y, z) d).1.1 (rewriteFace a b (x, y, z) d).1.2.1
             (rewriteFace a b (x, y, z) d).1.2.2) = true := by
  by_cases hxb : x = b <;> by_cases hyb : y = b <;> by_cases hzb : z = b <;>
    by_cases hxa : x = a <;> by_cases hya : y = a <;> by_cases hza : z = a <;>
    simp_all [rewriteFace, triOk] <;>
    (rcases h with h | h
     · exact Or.inl h
     · exact Or.inr (by omega))

theorem rewriteFaces_preserve {a b : ℕ} (hab : a ≠ b) :
    ∀ (idx : List ℕ) (flags : List Bool), liveFacesOk idx flags = true →
      liveFacesOk (rewriteFaces a b idx flags).1 (rewriteFaces a b idx flags).2 = true := by
  intro idx flags
  induction idx, flags using triPair_induction with
  | h0 ds => intro h; exact h
  | h1 x ds => intro h; exact h
  | h2 x y ds => intro h; exact h
  | hnil x y z rest => intro h; exact h
  | h3 x y z rest d ds ih =>
    intro h
    simp only [liveFacesOk, Bool.and_eq_true] at h
    have h1 := rewriteFace_preserves hab x y z d h.1
    have h2 := ih h.2
    simp only [rewriteFaces, liveFacesOk, Bool.and_eq_true]
    exact ⟨h1, h2⟩

theorem liveFacesOk_replicate :
    ∀ idx : List ℕ, liveFacesOk idx (List.replicate (idx.length / 3) false) = facesDistinct idx := by
  intro idx
  induction idx using triList_induction with
  | h0 => rfl
  | h1 x => rfl
  | h2 x y => rfl
  | h3 x y z rest ih =>
    have e : (x :: y :: z :: rest).length / 3 = rest.length / 3 + 1 := by
      simp only [List.length_cons]
      omega
    rw [e, List.replicate_succ]
    simp only [liveFacesOk, facesDistinct, ih, Bool.false_or]

theorem loopGo_liveFaces (n t : ℕ) :
    ∀ (fuel : ℕ) (st : LoopState), liveFacesOk st.indices st.deletedFaces = true →
      liveFacesOk (loopGo n t fuel st).indices (loopGo n t fuel st).deletedFaces = true := by
  intro fuel
  induction fuel with
  | zero => intro st h; exact h
  | succ fuel ih =>
    intro st h
    by_cases hguard : n - st.deletedCount ≤ t
    · simpa only [loopGo, if_pos hguard] using h
    · rcases hpm : popMin (edgeCost st.edges) st.heap with _ | ⟨pi, heap'⟩
      · simpa only [loopGo, if_neg hguard, hpm] using h
      · by_cases hstale : (st.edges.getD pi defaultPair).fst = (st.edges.getD pi defaultPair).snd
        · simp only [loopGo, if_neg hguard, hpm, if_pos hstale]
          exact ih _ h
        · simp only [loopGo, if_neg hguard, hpm, if_neg hstale]
          apply ih
          have e1 : (contract { st with heap := heap', iters := st.iters + 1 } pi
              (st.edges.getD pi defaultPair).fst (st.edges.getD pi defaultPair).snd).indices
              = (rewriteFaces (st.edges.getD pi defaultPair).fst
                  (st.edges.getD pi defaultPair).snd st.indices st.deletedFaces).1 := rfl
          have e2 : (contract { st with heap := heap', iters := st.iters + 1 } pi
              (st.edges.getD pi defaultPair).fst (st.edges.getD pi defaultPair).snd).deletedFaces
              = (rewriteFaces (st.edges.getD pi defaultPair).fst
                  (st.edges.getD pi defaultPair).snd st.indices st.deletedFaces).2 := rfl
          rw [e1, e2]
          exact rewriteFaces_preserve hstale _ _ h

theorem rebuild_facesDistinct :
    ∀ (idx : List ℕ) (flags : List Bool), liveFacesOk idx flags = true →
      facesDistinct (rebuildIndices idx flags) = true := by
  intro idx flags
  induction idx, flags using triPair_induction with
  | h0 ds => intro _; rfl
  | h1 x ds => intro _; rfl
  | h2 x y ds => intro _; rfl
  | hnil x y z rest => intro _; rfl
  | h3 x y z rest d ds ih =>
    intro h
    simp only [liveFacesOk, Bool.and_eq_true] at h
    by_cases hd : d
    · simp only [rebuildIndices, if_pos hd]
      exact ih h.2
    · simp only [rebuildIndices, if_neg hd]
      simp only [facesDistinct, Bool.and_eq_true]
      refine ⟨?_, ih h.2⟩
      simpa [hd] using h.1

/-!
Claims.
-/

/-- Claim C3 (`code_bug` evidence): on a triangle-list primitive consisting of
one fully degenerate triangle `[0, 0, 0]` over a single vertex, with
`target = 2/5` (`targetCount = round(1 · 2/5) = 0`) and zero distance
threshold, every heap entry is a stale self-pair `(0, 0)`; the loop drains
the heap by stale pops while `n - deletedCount = 1 > 0 = targetCount`, and
the next `pairs.pop()` returns `undefined`, so `leastCost.vertices` throws a
`TypeError`.  The claim says the contraction loop never fails; this run
evaluates to the thrown error. -/
theorem C3_drained_heap_crashes :
    simplifyPrimitive sqrtStub degeneratePrim degenerateOpts = Except.error crashMessage := by
  decide

/-- Claim C10: every loop iteration (stale or contracting) removes exactly one
entry from the heap via `pop` and nothing is ever pushed after construction
(`heapify` only reorders), so `iters + |heap|` is conserved and the
iteration count is bounded by the number of initially constructed pairs. -/
theorem C10_iterations_bounded (sq : ℚ → ℚ) (prim : Primitive) (opts : SimplifyOpts) :
    (simplifyState sq prim opts).iters + (simplifyState sq prim opts).heap.length
        = (simplifyEdges sq prim opts).length ∧
    (simplifyState sq prim opts).iters ≤ (simplifyEdges sq prim opts).length := by
  have h := loop_conserve (n := prim.attributes.length)
    (t := simplifyTargetCount prim opts) (initialState sq prim opts)
  have e1 : (initialState sq prim opts).iters = 0 := rfl
  have e2 : (initialState sq prim opts).heap.length = (simplifyEdges sq prim opts).length := by
    simp [initialState]
  have hss : simplifyState sq prim opts
      = loop prim.attributes.length (simplifyTargetCount prim opts) (initialState sq prim opts) :=
    rfl
  rw [hss]
  omega

/-- Claim C5: `targetCount = round(n × target)` (JavaScript `Math.round`, half
up), and whenever the contraction loop exits normally it has deleted exactly
enough vertices to land on the target: `n - deletedCount = targetCount`, so
both claimed inequalities hold. -/
theorem C5_exit_hits_target (sq : ℚ → ℚ) (prim : Primitive) (opts : SimplifyOpts)
    (htarget0 : 0 < opts.target) (htarget1 : opts.target ≤ 1)
    (hok : (simplifyState sq prim opts).crashed = false) :
    simplifyTargetCount prim opts
        = (⌊(prim.attributes.length : ℚ) * opts.target + 1 / 2⌋).toNat ∧
    prim.attributes.length - (simplifyState sq prim opts).deletedCount
        ≤ simplifyTargetCount prim opts ∧
    simplifyTargetCount prim opts
        ≤ (prim.attributes.length - (simplifyState sq prim opts).deletedCount) + 1 := by
  have hround : simplifyTargetCount prim opts
      = (⌊(prim.attributes.length : ℚ) * opts.target + 1 / 2⌋).toNat := by
    unfold simplifyTargetCount
    rw [jsRound_eq, qmul_eq]
  have hle := simplifyTargetCount_le prim opts htarget1
  have e0 : (initialState sq prim opts).deletedCount = 0 := rfl
  have hss : simplifyState sq prim opts
      = loop prim.attributes.length (simplifyTargetCount prim opts) (initialState sq prim opts) :=
    rfl
  rw [hss] at hok
  have hexit := loop_exit (initialState sq prim opts) (by omega) hok
  rw [hss]
  exact ⟨hround, by omega, by omega⟩

/-- Witness for C5: the single-triangle run with `target = 2/3` exits
normally after one contraction (`3 - 1 = 2 = targetCount`). -/
theorem C5_exit_hits_target_witness :
    (0 < demoOpts.target ∧ demoOpts.target ≤ 1 ∧
      (simplifyState sqrtStub demoTriangle demoOpts).crashed = false) ∧
    (simplifyTargetCount demoTriangle demoOpts
        = (⌊(demoTriangle.attributes.length : ℚ) * demoOpts.target + 1 / 2⌋).toNat ∧
     demoTriangle.attributes.length - (simplifyState sqrtStub demoTriangle demoOpts).deletedCount
        ≤ simplifyTargetCount demoTriangle demoOpts ∧
     simplifyTargetCount demoTriangle demoOpts
        ≤ (demoTriangle.attributes.length
            - (simplifyState sqrtStub demoTriangle demoOpts).deletedCount) + 1) :=
  ⟨⟨by decide, by decide, by decide⟩,
    C5_exit_hits_target sqrtStub demoTriangle demoOpts (by decide) (by decide) (by decide)⟩

/-- Claim C9: a primitive whose draw mode is not `TRIANGLES` is returned
entirely unmodified with exactly one warning (the morph-target warning when
morph targets are also present, else the draw-mode warning). -/
theorem C9_non_triangles_skipped (sq : ℚ → ℚ) (prim : Primitive) (opts : SimplifyOpts)
    (h : prim.mode ≠ trianglesMode) :
    simplifyPrimitive sq prim opts =
      Except.ok (prim, [if 0 < prim.morphTargets then morphWarning else modeWarning]) := by
  unfold simplifyPrimitive
  by_cases hm : 0 < prim.morphTargets
  · simp [hm]
  · simp [hm, h]

/-- Witness for C9: a `POINTS`-mode primitive (which also carries a tangent
attribute) comes back byte-for-byte unchanged with exactly the draw-mode
warning. -/
theorem C9_non_triangles_skipped_witness :
    pointsPrim.mode ≠ trianglesMode ∧
    simplifyPrimitive sqrtStub pointsPrim keepAllOpts = Except.ok (pointsPrim, [modeWarning]) :=
  ⟨by decide, by
    have h := C9_non_triangles_skipped sqrtStub pointsPrim keepAllOpts (by decide)
    simpa using h⟩

/-- Claim C1 (`code_bug` evidence): on the single-triangle run, the loop pops
the pair `(0, 1)` and contracts it (pair record 0 becomes the stale
self-pair `(0, 0)`, and `deletedCount = 1`).  Pair record 2 referenced
vertex `b = 1` but not `a = 0`; the code recomputes its cost from
`vertices[0]` and its other endpoint (`// A is replacing B.`), but leaves
its stored endpoints `(1, 2)` untouched — the `b` reference is **not**
rewritten to `a`, contradicting the claim. -/
theorem C1_b_reference_not_rewritten :
    (simplifyState sqrtStub demoTriangle demoOpts).deletedCount = 1 ∧
    ((simplifyState sqrtStub demoTriangle demoOpts).edges.getD 0 defaultPair).fst = 0 ∧
    ((simplifyState sqrtStub demoTriangle demoOpts).edges.getD 0 defaultPair).snd = 0 ∧
    ((simplifyState sqrtStub demoTriangle demoOpts).edges.getD 2 defaultPair).fst = 1 ∧
    ((simplifyState sqrtStub demoTriangle demoOpts).edges.getD 2 defaultPair).snd = 2 := by
  decide

/-- Claim C4 (`code_bug` evidence): on the single-triangle run, after the
contraction of `(0, 1)` the surviving vertex 0 still carries its *original*
accumulated quadric (entry `(2,2) = 1/10000`), not the merged quadric
`Q₀ + Q₁` (entry `(2,2) = 1/5000`): `merge` sums the quadrics only to score
the pair and nothing ever writes the sum into `vertices[a].error`, so
recomputed pair costs use `a`'s pre-merge quadric, contradicting the
claim. -/
theorem C4_quadric_not_merged :
    (simplifyState sqrtStub demoTriangle demoOpts).deletedCount = 1 ∧
    ((simplifyState sqrtStub demoTriangle demoOpts).vertices.getD 0 defaultVertex).error 2 2
        = Rat.divInt 1 10000 ∧
    matAdd ((simplifyVertices sqrtStub demoTriangle demoOpts).getD 0 defaultVertex).error
        ((simplifyVertices sqrtStub demoTriangle demoOpts).getD 1 defaultVertex).error 2 2
        = Rat.divInt 1 5000 ∧
    (Rat.divInt 1 10000 : ℚ) ≠ Rat.divInt 1 5000 := by
  decide

/-- Claim C2 (counterexample): in `sharedEdgePrim` the edge `{0, 1}` is shared
by both triangles; pair enumeration stores it once per triangle occurrence,
so two distinct candidate pair records `(0, 1)` are constructed — not one
pair per distinct mesh edge. -/
theorem C2_shared_edge_stored_twice :
    ((simplifyEdges sqrtStub sharedEdgePrim keepAllOpts).countP
        (fun e => e.fst == 0 && e.snd == 1)) = 2 := by
  decide


/-- Degenerate-face absence is preserved by the whole contraction loop plus
rebuild: every triangle flagged deleted is dropped, and a contraction with
`a ≠ b` keeps all unflagged triangles pairwise-distinct. -/
theorem facesDistinct_afterLoop (sq : ℚ → ℚ) (prim : Primitive) (opts : SimplifyOpts)
    (h : facesDistinct prim.indices = true) :
    facesDistinct (rebuildIndices (simplifyState sq prim opts).indices
      (simplifyState sq prim opts).deletedFaces) = true := by
  apply rebuild_facesDistinct
  have e1 : (initialState sq prim opts).indices = prim.indices := rfl
  have e2 : (initialState sq prim opts).deletedFaces
      = List.replicate (prim.indices.length / 3) false := rfl
  have h0 : liveFacesOk (initialState sq prim opts).indices
      (initialState sq prim opts).deletedFaces = true := by
    rw [e1, e2, liveFacesOk_replicate]
    exact h
  have hss : simplifyState sq prim opts
      = loopGo prim.attributes.length (simplifyTargetCount prim opts)
          ((initialState sq prim opts).heap.length + 1) (initialState sq prim opts) := rfl
  rw [hss]
  exact loopGo_liveFaces _ _ _ _ h0

/-- Claim C6 (counterexample): `degenerateFacePrim` has the input-degenerate
triangle `(0, 0, 1)`; with `target = 1` the loop performs no contraction,
nothing flags the face (the deleted flag is only ever set during a
contraction whose two endpoints both occur in the face — cf. the
`TODO(feat): Remove degenerate triangles` left in the source), and the
rebuilt index buffer still contains the triangle with two equal indices. -/
theorem C6_input_degenerate_face_survives :
    outIndices (simplifyPrimitive sqrtStub degenerateFacePrim keepAllOpts) = [0, 0, 1] ∧
    facesDistinct [0, 0, 1] = false := by
  decide

/-- Claim C6, amended: if every *input* triangle has pairwise-distinct indices,
then so does every triangle of the rebuilt index buffer; input-degenerate
triangles, however, can survive (see the counterexample). -/
theorem C6_amended_no_degenerate_output (sq : ℚ → ℚ) (prim : Primitive) (opts : SimplifyOpts)
    (h : facesDistinct prim.indices = true) :
    facesDistinct (outIndices (simplifyPrimitive sq prim opts)) = true := by
  unfold simplifyPrimitive
  by_cases hm : 0 < prim.morphTargets
  · simpa [outIndices, hm] using h
  · by_cases hmode : prim.mode = trianglesMode
    · have hne : ¬prim.mode ≠ trianglesMode := by simpa using hmode
      simp only [if_neg hm, if_neg hne]
      set prim1 := if prim.hasTangent then { prim with hasTangent := false } else prim with hp1
      have hidx : prim1.indices = prim.indices := by
        rw [hp1]
        cases prim.hasTangent <;> simp
      by_cases hcr : (simplifyState sq prim1 opts).crashed
      · simp only [if_pos hcr, outIndices]
        rfl
      · simp only [if_neg hcr, outIndices]
        exact facesDistinct_afterLoop sq prim1 opts (by rw [hidx]; exact h)
    · simp only [if_neg hm, if_pos hmode]
      simpa [outIndices] using h

/-- Witness for the amended C6: the single-triangle contraction run ends
with a rebuilt buffer free of degenerate triangles. -/
theorem C6_amended_no_degenerate_output_witness :
    facesDistinct demoTriangle.indices = true ∧
    facesDistinct (outIndices (simplifyPrimitive sqrtStub demoTriangle demoOpts)) = true :=
  ⟨by decide, C6_amended_no_degenerate_output sqrtStub demoTriangle demoOpts (by decide)⟩


/-!
Quadric-shape invariants (for C7 and C8).

A predicate on quadrics that holds for every vertex record is preserved by
each phase: quadric accumulation (which adds a plane outer-product), pair
collection (which only touches `pairs`), and the contraction loop (which
only ever overwrites `attributes` — no code path writes `error` after
step 1).
-/

theorem P_error_modifyAt (P : Mat4 → Prop) (vs : List Vertex) (idx : ℕ) (f : Vertex → Vertex)
    (hf : ∀ v, P v.error → P (f v).error)
    (h : ∀ i, P ((vs.getD i defaultVertex).error)) :
    ∀ i, P (((modifyAt vs idx f).getD i defaultVertex).error) := by
  intro i
  rw [getD_modifyAt]
  split_ifs with hc
  · exact hf _ (h i)
  · exact h i

theorem P_error_foldl {β : Type} (P : Mat4 → Prop) (step : List Vertex → β → List Vertex)
    (hstep : ∀ vs e, (∀ i, P ((vs.getD i defaultVertex).error)) →
      ∀ i, P (((step vs e).getD i defaultVertex).error)) :
    ∀ (l : List β) (vs : List Vertex), (∀ i, P ((vs.getD i defaultVertex).error)) →
      ∀ i, P (((l.foldl step vs).getD i defaultVertex).error) := by
  intro l
  induction l with
  | nil => intro vs h i; exact h i
  | cons e rest ih =>
    intro vs h i
    rw [List.foldl_cons]
    exact ih _ (hstep vs e h) i

theorem P_error_addFaceQuadric (P : Mat4 → Prop)
    (hadd : ∀ (m : Mat4) (p : Vec4), P m → P (matAdd m (planeQuadric p)))
    (sq : ℚ → ℚ) (vs : List Vertex) (f3 : ℕ × ℕ × ℕ)
    (h : ∀ i, P ((vs.getD i defaultVertex).error)) :
    ∀ i, P (((addFaceQuadric sq vs f3).getD i defaultVertex).error) := by
  unfold addFaceQuadric
  apply P_error_modifyAt P _ _ _ (fun v hv => hadd _ _ hv)
  apply P_error_modifyAt P _ _ _ (fun v hv => hadd _ _ hv)
  apply P_error_modifyAt P _ _ _ (fun v hv => hadd _ _ hv)
  exact h

theorem P_error_accumQuadrics (P : Mat4 → Prop)
    (hadd : ∀ (m : Mat4) (p : Vec4), P m → P (matAdd m (planeQuadric p)))
    (sq : ℚ → ℚ) (vs : List Vertex) (indices : List ℕ)
    (h : ∀ i, P ((vs.getD i defaultVertex).error)) :
    ∀ i, P (((accumQuadrics sq vs indices).getD i defaultVertex).error) :=
  P_error_foldl P _ (fun vs' f3 h' => P_error_addFaceQuadric P hadd sq vs' f3 h') (faces indices) vs h

theorem P_error_pushCanonEdge (P : Mat4 → Prop) (vs : List Vertex) (e : ℕ × ℕ)
    (h : ∀ i, P ((vs.getD i defaultVertex).error)) :
    ∀ i, P (((pushCanonEdge vs e).getD i defaultVertex).error) := by
  unfold pushCanonEdge
  split_ifs <;> exact P_error_modifyAt P _ _ _ (fun v hv => hv) h

theorem P_error_collectEdgePairs (P : Mat4 → Prop) (vs : List Vertex) (indices : List ℕ)
    (h : ∀ i, P ((vs.getD i defaultVertex).error)) :
    ∀ i, P (((collectEdgePairs vs indices).getD i defaultVertex).error) :=
  P_error_foldl P _ (fun vs' e h' => P_error_pushCanonEdge P vs' e h') (edgeSlots indices) vs h

theorem P_error_collectProximityPairs (P : Mat4 → Prop) (vs : List Vertex) (threshold : ℚ)
    (h : ∀ i, P ((vs.getD i defaultVertex).error)) :
    ∀ i, P (((collectProximityPairs vs threshold).getD i defaultVertex).error) := by
  unfold collectProximityPairs
  refine P_error_foldl P _ ?_ _ vs h
  intro vs' e h'
  refine P_error_foldl P _ ?_ _ vs' h'
  intro vs2 j h2 i
  dsimp only
  split_ifs with hdist hij
  · exact P_error_modifyAt P vs2 e
      (fun v => { v with pairs := v.pairs ++ [j] }) (fun v hv => hv) h2 i
  · exact P_error_modifyAt P vs2 j
      (fun v => { v with pairs := v.pairs ++ [e] }) (fun v hv => hv) h2 i
  · exact h2 i

theorem P_error_simplifyVertices (P : Mat4 → Prop) (sq : ℚ → ℚ) (prim : Primitive)
    (opts : SimplifyOpts)
    (h : ∀ i, P (((simplifyQuadrics sq prim).getD i defaultVertex).error)) :
    ∀ i, P (((simplifyVertices sq prim opts).getD i defaultVertex).error) := by
  unfold simplifyVertices
  split_ifs with ht
  · exact P_error_collectProximityPairs P _ _ (P_error_collectEdgePairs P _ _ h)
  · exact P_error_collectEdgePairs P _ _ h

theorem P_error_loopGo (P : Mat4 → Prop) (n t : ℕ) :
    ∀ (fuel : ℕ) (st : LoopState), (∀ i, P ((st.vertices.getD i defaultVertex).error)) →
      ∀ i, P (((loopGo n t fuel st).vertices.getD i defaultVertex).error) := by
  intro fuel
  induction fuel with
  | zero => intro st h i; exact h i
  | succ fuel ih =>
    intro st h i
    by_cases hguard : n - st.deletedCount ≤ t
    · simp only [loopGo, if_pos hguard]
      exact h i
    · rcases hpm : popMin (edgeCost st.edges) st.heap with _ | ⟨pi, heap'⟩
      · simp only [loopGo, if_neg hguard, hpm]
        exact h i
      · by_cases hstale : (st.edges.getD pi defaultPair).fst = (st.edges.getD pi defaultPair).snd
        · simp only [loopGo, if_neg hguard, hpm, if_pos hstale]
          exact ih { st with heap := heap', iters := st.iters + 1 } h i
        · simp only [loopGo, if_neg hguard, hpm, if_neg hstale]
          apply ih _ _ i
          intro k
          have e : (contract { st with heap := heap', iters := st.iters + 1 } pi
              (st.edges.getD pi defaultPair).fst (st.edges.getD pi defaultPair).snd).vertices
              = modifyAt st.vertices (st.edges.getD pi defaultPair).fst
                  (fun v => { v with attributes :=
                    (st.vertices.getD
                      (st.edges.getD pi defaultPair).result defaultVertex).attributes }) := rfl
          rw [e]
          exact P_error_modifyAt P st.vertices (st.edges.getD pi defaultPair).fst
            (fun v => { v with attributes :=
              (st.vertices.getD (st.edges.getD pi defaultPair).result defaultVertex).attributes })
            (fun v hv => hv) h k

/-- Quadrics are zero-initialized by `listVertices`. -/
theorem error_listVertices (prim : Primitive) (i : ℕ) :
    ((listVertices prim).getD i defaultVertex).error = zeroMat4 := by
  unfold listVertices
  by_cases hi : i < prim.attributes.length
  · rw [List.getD_eq_getElem?_getD]
    simp [List.getElem?_map, List.getElem?_range, hi]
  · rw [List.getD_eq_default]
    · rfl
    · simp only [List.length_map, List.length_range]
      omega

theorem symm_zeroMat4 : Symm zeroMat4 := fun _ _ => rfl

theorem symm_matAdd {a b : Mat4} (ha : Symm a) (hb : Symm b) : Symm (matAdd a b) := by
  intro i j
  unfold matAdd
  rw [ha i j, hb i j]

theorem symm_planeQuadric (p : Vec4) : Symm (planeQuadric p) := by
  intro i j
  unfold planeQuadric
  rw [qmul_eq, qmul_eq, mul_comm]


theorem matAdd_zero_right (m : Mat4) : matAdd m zeroMat4 = m := by
  funext i j
  show qadd (m i j) 0 = m i j
  rw [qadd_eq]
  ring

theorem matAdd_zero_left (m : Mat4) : matAdd zeroMat4 m = m := by
  funext i j
  show qadd 0 (m i j) = m i j
  rw [qadd_eq]
  ring

theorem matAdd_assoc (a b c : Mat4) : matAdd (matAdd a b) c = matAdd a (matAdd b c) := by
  funext i j
  show qadd (qadd (a i j) (b i j)) (c i j) = qadd (a i j) (qadd (b i j) (c i j))
  simp only [qadd_eq]
  ring

theorem sumQuadrics_shift (qs : List Vec4) : ∀ base : Mat4,
    qs.foldl (fun q p => matAdd q (planeQuadric p)) base = matAdd base (sumQuadrics qs) := by
  induction qs with
  | nil => intro base; exact (matAdd_zero_right base).symm
  | cons p rest ih =>
    intro base
    have hsum : sumQuadrics (p :: rest) = matAdd (planeQuadric p) (sumQuadrics rest) := by
      unfold sumQuadrics
      rw [List.foldl_cons, ih (matAdd zeroMat4 (planeQuadric p)), matAdd_zero_left]
      rfl
    rw [List.foldl_cons, ih (matAdd base (planeQuadric p)), hsum, matAdd_assoc]

theorem isPlaneSum_zeroMat4 : IsPlaneSum zeroMat4 := ⟨[], rfl⟩

theorem isPlaneSum_step {m : Mat4} (h : IsPlaneSum m) (p : Vec4) :
    IsPlaneSum (matAdd m (planeQuadric p)) := by
  obtain ⟨ps, rfl⟩ := h
  refine ⟨ps ++ [p], ?_⟩
  unfold sumQuadrics
  rw [List.foldl_append]
  rfl

theorem isPlaneSum_matAdd {m m' : Mat4} (h : IsPlaneSum m) (h' : IsPlaneSum m') :
    IsPlaneSum (matAdd m m') := by
  obtain ⟨ps, rfl⟩ := h
  obtain ⟨qs, rfl⟩ := h'
  refine ⟨ps ++ qs, ?_⟩
  unfold sumQuadrics
  rw [List.foldl_append]
  exact (sumQuadrics_shift qs _).symm

theorem vertexError_matAdd (v : Vertex) (A B : Mat4) :
    vertexError v (matAdd A B) = vertexError v A + vertexError v B := by
  unfold vertexError dot4 transform4 matAdd
  simp only [qadd_eq, qmul_eq]
  ring

theorem vertexError_zeroMat4 (v : Vertex) : vertexError v zeroMat4 = 0 := by
  unfold vertexError dot4 transform4 zeroMat4
  simp only [qadd_eq, qmul_eq]
  ring

/-- Identity `pᵀ (v vᵀ) p = (v · p)²`: the error of any position under a single plane
outer-product quadric is a perfect square. -/
theorem vertexError_planeQuadric (v : Vertex) (p : Vec4) :
    vertexError v (planeQuadric p)
      = (p 0 * homog v 0 + p 1 * homog v 1 + p 2 * homog v 2 + p 3 * homog v 3) ^ 2 := by
  unfold vertexError dot4 transform4 planeQuadric
  simp only [qadd_eq, qmul_eq]
  ring

theorem vertexError_foldl_nonneg (v : Vertex) :
    ∀ (ps : List Vec4) (q0 : Mat4), 0 ≤ vertexError v q0 →
      0 ≤ vertexError v (ps.foldl (fun q p => matAdd q (planeQuadric p)) q0) := by
  intro ps
  induction ps with
  | nil => intro q0 h; exact h
  | cons p rest ih =>
    intro q0 h
    rw [List.foldl_cons]
    apply ih
    rw [vertexError_matAdd, vertexError_planeQuadric]
    have hsq := sq_nonneg (p 0 * homog v 0 + p 1 * homog v 1 + p 2 * homog v 2 + p 3 * homog v 3)
    linarith

theorem isPlaneSum_vertexError_nonneg {m : Mat4} (h : IsPlaneSum m) (v : Vertex) :
    0 ≤ vertexError v m := by
  obtain ⟨ps, rfl⟩ := h
  exact vertexError_foldl_nonneg v ps zeroMat4 (by rw [vertexError_zeroMat4])

theorem mergeIdx_snd (a b : Vertex) :
    (mergeIdx a b).2
      = if vertexError a (matAdd a.error b.error) ≤ vertexError b (matAdd a.error b.error)
        then vertexError a (matAdd a.error b.error)
        else vertexError b (matAdd a.error b.error) := by
  show (if vertexError a (matAdd a.error b.error) ≤ vertexError b (matAdd a.error b.error)
      then (a.index, vertexError a (matAdd a.error b.error))
      else (b.index, vertexError b (matAdd a.error b.error))).2 = _
  rw [apply_ite Prod.snd]

theorem mergeIdx_cost_nonneg {a b : Vertex} (ha : IsPlaneSum a.error) (hb : IsPlaneSum b.error) :
    0 ≤ (mergeIdx a b).2 := by
  rw [mergeIdx_snd]
  have hq := isPlaneSum_vertexError_nonneg (isPlaneSum_matAdd ha hb)
  by_cases h : vertexError a (matAdd a.error b.error) ≤ vertexError b (matAdd a.error b.error)
  · rw [if_pos h]
    exact hq a
  · rw [if_neg h]
    exact hq b

theorem mem_buildEdges_cost_nonneg (vs : List Vertex)
    (h : ∀ i, IsPlaneSum ((vs.getD i defaultVertex).error)) :
    ∀ e ∈ buildEdges vs, 0 ≤ e.cost := by
  unfold buildEdges
  suffices H : ∀ (l : List ℕ) (acc : List Pair), (∀ e ∈ acc, 0 ≤ e.cost) →
      ∀ e ∈ l.foldl (fun acc2 i =>
        acc2 ++ (vs.getD i defaultVertex).pairs.map fun j =>
          let rc := mergeIdx (vs.getD i defaultVertex) (vs.getD j defaultVertex)
          { fst := i, snd := j, result := rc.1, cost := rc.2 }) acc, 0 ≤ e.cost by
    exact H _ [] (by intro e he; simp at he)
  intro l
  induction l with
  | nil => intro acc hacc e he; exact hacc e he
  | cons i rest ih =>
    intro acc hacc e he
    rw [List.foldl_cons] at he
    refine ih _ ?_ e he
    intro e' he'
    rcases List.mem_append.mp he' with h1 | h2
    · exact hacc e' h1
    · rcases List.mem_map.mp h2 with ⟨j, _, rfl⟩
      exact mergeIdx_cost_nonneg (h i) (h j)

theorem buildEdges_cost_nonneg (vs : List Vertex)
    (h : ∀ i, IsPlaneSum ((vs.getD i defaultVertex).error)) (k : ℕ) :
    0 ≤ ((buildEdges vs).getD k defaultPair).cost := by
  by_cases hk : k < (buildEdges vs).length
  · have hmem : (buildEdges vs).getD k defaultPair ∈ buildEdges vs := by
      rw [List.getD_eq_getElem?_getD, List.getElem?_eq_getElem hk]
      exact List.getElem_mem _
    exact mem_buildEdges_cost_nonneg vs h _ hmem
  · rw [List.getD_eq_default _ _ (Nat.le_of_not_lt hk)]
    exact le_refl 0

/-- Claim C7: every vertex quadric is symmetric, both right after the initial
accumulation (`simplifyQuadrics`) and in the loop's final state
(`simplifyState`); by `P_error_loopGo`, no operation after accumulation ever
writes a vertex's `error`, so the invariant holds at every intermediate
state as well. -/
theorem C7_quadrics_symmetric (sq : ℚ → ℚ) (prim : Primitive) (opts : SimplifyOpts)
    (i : ℕ) (r c : Fin 4) :
    ((simplifyQuadrics sq prim).getD i defaultVertex).error r c
        = ((simplifyQuadrics sq prim).getD i defaultVertex).error c r ∧
    ((simplifyState sq prim opts).vertices.getD i defaultVertex).error r c
        = ((simplifyState sq prim opts).vertices.getD i defaultVertex).error c r := by
  have hq : ∀ k, Symm (((simplifyQuadrics sq prim).getD k defaultVertex).error) := by
    unfold simplifyQuadrics
    apply P_error_accumQuadrics Symm (fun m p hm => symm_matAdd hm (symm_planeQuadric p))
    intro k
    rw [error_listVertices]
    exact symm_zeroMat4
  have hst : ∀ k, Symm (((simplifyState sq prim opts).vertices.getD k defaultVertex).error) := by
    have hss : simplifyState sq prim opts
        = loopGo prim.attributes.length (simplifyTargetCount prim opts)
            ((initialState sq prim opts).heap.length + 1) (initialState sq prim opts) := rfl
    rw [hss]
    apply P_error_loopGo Symm
    have e : (initialState sq prim opts).vertices = simplifyVertices sq prim opts := rfl
    rw [e]
    exact P_error_simplifyVertices Symm sq prim opts hq
  exact ⟨hq i r c, hst i r c⟩

/-- Claim C8: the evaluated error `p · (Q · p)` is non-negative (exactly, over
exact rational arithmetic) for every quadric that is a sum of plane
outer-products — in particular for every quadric the builder accumulates and
for the sum `Qa + Qb` formed in `merge` — and consequently every constructed
pair cost is non-negative. -/
theorem C8_vertex_error_nonneg :
    (∀ (v : Vertex) (ps : List Vec4), 0 ≤ vertexError v (sumQuadrics ps)) ∧
    (∀ (v : Vertex) (ps qs : List Vec4),
        0 ≤ vertexError v (matAdd (sumQuadrics ps) (sumQuadrics qs))) ∧
    (∀ (sq : ℚ → ℚ) (prim : Primitive) (v : Vertex) (i : ℕ),
        0 ≤ vertexError v (((simplifyQuadrics sq prim).getD i defaultVertex).error)) ∧
    (∀ (sq : ℚ → ℚ) (prim : Primitive) (opts : SimplifyOpts) (k : ℕ),
        0 ≤ ((simplifyEdges sq prim opts).getD k defaultPair).cost) := by
  have hrep : ∀ (sq : ℚ → ℚ) (prim : Primitive) (i : ℕ),
      IsPlaneSum (((simplifyQuadrics sq prim).getD i defaultVertex).error) := by
    intro sq prim
    unfold simplifyQuadrics
    apply P_error_accumQuadrics IsPlaneSum (fun m p hm => isPlaneSum_step hm p)
    intro k
    rw [error_listVertices]
    exact isPlaneSum_zeroMat4
  refine ⟨?_, ?_, ?_, ?_⟩
  · intro v ps
    exact isPlaneSum_vertexError_nonneg ⟨ps, rfl⟩ v
  · intro v ps qs
    exact isPlaneSum_vertexError_nonneg (isPlaneSum_matAdd ⟨ps, rfl⟩ ⟨qs, rfl⟩) v
  · intro sq prim v i
    exact isPlaneSum_vertexError_nonneg (hrep sq prim i) v
  · intro sq prim opts k
    unfold simplifyEdges
    apply buildEdges_cost_nonneg
    exact P_error_simplifyVertices IsPlaneSum sq prim opts (hrep sq prim)


/-!
Pair-enumeration counting (for C2).
-/

theorem pairs_getD_modifyAt (vs : List Vertex) (idx : ℕ) (f : Vertex → Vertex)
    (hf : ∀ v, (f v).pairs = v.pairs) (i : ℕ) :
    ((modifyAt vs idx f).getD i defaultVertex).pairs = (vs.getD i defaultVertex).pairs := by
  rw [getD_modifyAt]
  split_ifs with hc
  · rw [hf]
  · rfl

theorem pairs_foldl {β : Type} (step : List Vertex → β → List Vertex)
    (hstep : ∀ vs e i, ((step vs e).getD i defaultVertex).pairs = (vs.getD i defaultVertex).pairs) :
    ∀ (l : List β) (vs : List Vertex) (i : ℕ),
      ((l.foldl step vs).getD i defaultVertex).pairs = (vs.getD i defaultVertex).pairs := by
  intro l
  induction l with
  | nil => intro vs i; rfl
  | cons e rest ih =>
    intro vs i
    rw [List.foldl_cons, ih, hstep]

theorem pairs_addFaceQuadric (sq : ℚ → ℚ) (vs : List Vertex) (f3 : ℕ × ℕ × ℕ) (i : ℕ) :
    ((addFaceQuadric sq vs f3).getD i defaultVertex).pairs = (vs.getD i defaultVertex).pairs := by
  unfold addFaceQuadric
  dsimp only
  rw [pairs_getD_modifyAt, pairs_getD_modifyAt, pairs_getD_modifyAt] <;> (intro v; rfl)

theorem pairs_listVertices (prim : Primitive) (i : ℕ) :
    ((listVertices prim).getD i defaultVertex).pairs = [] := by
  unfold listVertices
  by_cases hi : i < prim.attributes.length
  · rw [List.getD_eq_getElem?_getD]
    simp [List.getElem?_map, List.getElem?_range, hi]
  · rw [List.getD_eq_default]
    · rfl
    · simp only [List.length_map, List.length_range]
      omega

theorem pairs_simplifyQuadrics (sq : ℚ → ℚ) (prim : Primitive) (i : ℕ) :
    ((simplifyQuadrics sq prim).getD i defaultVertex).pairs = [] := by
  unfold simplifyQuadrics accumQuadrics
  rw [pairs_foldl _ (fun vs' f3 i' => pairs_addFaceQuadric sq vs' f3 i'), pairs_listVertices]

theorem length_listVertices (prim : Primitive) :
    (listVertices prim).length = prim.attributes.length := by
  unfold listVertices
  rw [List.length_map, List.length_range]

theorem length_addFaceQuadric (sq : ℚ → ℚ) (vs : List Vertex) (f3 : ℕ × ℕ × ℕ) :
    (addFaceQuadric sq vs f3).length = vs.length := by
  unfold addFaceQuadric
  rw [length_modifyAt, length_modifyAt, length_modifyAt]

theorem length_simplifyQuadrics (sq : ℚ → ℚ) (prim : Primitive) :
    (simplifyQuadrics sq prim).length = prim.attributes.length := by
  unfold simplifyQuadrics accumQuadrics
  have : ∀ (fs : List (ℕ × ℕ × ℕ)) (vs : List Vertex),
      (fs.foldl (addFaceQuadric sq) vs).length = vs.length := by
    intro fs
    induction fs with
    | nil => intro vs; rfl
    | cons f rest ih => intro vs; rw [List.foldl_cons, ih, length_addFaceQuadric]
  rw [this, length_listVertices]

theorem edgeSlots_mem {idx : List ℕ} :
    ∀ e ∈ edgeSlots idx, e.1 ∈ idx ∧ e.2 ∈ idx := by
  induction idx using triList_induction with
  | h0 => intro e he; simp [edgeSlots, faces] at he
  | h1 x => intro e he; simp [edgeSlots, faces] at he
  | h2 x y => intro e he; simp [edgeSlots, faces] at he
  | h3 x y z rest ih =>
    intro e he
    have hexp : edgeSlots (x :: y :: z :: rest) = (x, y) :: (y, z) :: (z, x) :: edgeSlots rest :=
      rfl
    rw [hexp] at he
    simp only [List.mem_cons] at he
    rcases he with rfl | rfl | rfl | he
    · exact ⟨by simp, by simp⟩
    · exact ⟨by simp, by simp⟩
    · exact ⟨by simp, by simp⟩
    · obtain ⟨h1, h2⟩ := ih e he
      exact ⟨by simp [h1], by simp [h2]⟩

theorem count_push_helper (vs : List Vertex) (tgt pushed : ℕ) (htgt : tgt < vs.length)
    (u v : ℕ) :
    ((modifyAt vs tgt (fun w => { w with pairs := w.pairs ++ [pushed] })).getD u
        defaultVertex).pairs.count v
      = ((vs.getD u defaultVertex).pairs.count v)
        + (if tgt = u ∧ pushed = v then 1 else 0) := by
  rw [getD_modifyAt]
  by_cases hc : tgt = u ∧ u < vs.length
  · rw [if_pos hc]
    dsimp only
    rw [List.count_append]
    by_cases hpv : pushed = v
    · subst hpv
      simp [hc.1]
    · simp [hpv, Ne.symm hpv]
  · rw [if_neg hc]
    have htne : ¬tgt = u := fun he => hc ⟨he, he ▸ htgt⟩
    rw [if_neg (fun hand => htne hand.1)]
    omega

theorem count_pushCanonEdge (vs : List Vertex) (x y : ℕ)
    (h1 : x < vs.length) (h2 : y < vs.length) (u v : ℕ) :
    ((pushCanonEdge vs (x, y)).getD u defaultVertex).pairs.count v
      = ((vs.getD u defaultVertex).pairs.count v)
        + (if canonPair (x, y) = (u, v) then 1 else 0) := by
  unfold pushCanonEdge canonPair
  dsimp only
  by_cases hxy : x < y
  · rw [if_pos hxy, if_pos hxy, count_push_helper vs x y h1 u v]
    congr 1
    simp [Prod.ext_iff]
  · rw [if_neg hxy, if_neg hxy, count_push_helper vs y x h2 u v]
    congr 1
    simp [Prod.ext_iff]

theorem length_pushCanonEdge (vs : List Vertex) (e : ℕ × ℕ) :
    (pushCanonEdge vs e).length = vs.length := by
  unfold pushCanonEdge
  split_ifs <;> rw [length_modifyAt]

theorem count_collectFold :
    ∀ (slots : List (ℕ × ℕ)) (vs : List Vertex),
      (∀ e ∈ slots, e.1 < vs.length ∧ e.2 < vs.length) → ∀ u v : ℕ,
      ((slots.foldl pushCanonEdge vs).getD u defaultVertex).pairs.count v
        = ((vs.getD u defaultVertex).pairs.count v)
          + slots.countP (fun e => decide (canonPair e = (u, v))) := by
  intro slots
  induction slots with
  | nil => intro vs h u v; simp
  | cons e rest ih =>
    intro vs h u v
    obtain ⟨x, y⟩ := e
    rw [List.foldl_cons]
    have hrest : ∀ e' ∈ rest,
        e'.1 < (pushCanonEdge vs (x, y)).length ∧ e'.2 < (pushCanonEdge vs (x, y)).length := by
      intro e' he'
      rw [length_pushCanonEdge]
      exact h e' (List.mem_cons_of_mem _ he')
    rw [ih (pushCanonEdge vs (x, y)) hrest u v]
    have he := h (x, y) (List.mem_cons_self _ _)
    rw [count_pushCanonEdge vs x y he.1 he.2 u v, List.countP_cons]
    simp only [decide_eq_true_eq]
    by_cases hcond : canonPair (x, y) = (u, v)
    · simp only [if_pos hcond]
      omega
    · simp only [if_neg hcond]
      omega

theorem pairs_le_pushFold :
    ∀ (slots : List (ℕ × ℕ)) (vs : List Vertex),
      (∀ u j, j ∈ (vs.getD u defaultVertex).pairs → u ≤ j) →
      ∀ u j, j ∈ ((slots.foldl pushCanonEdge vs).getD u defaultVertex).pairs → u ≤ j := by
  intro slots
  induction slots with
  | nil => intro vs h; exact h
  | cons e rest ih =>
    intro vs h
    rw [List.foldl_cons]
    apply ih
    intro u j hj
    obtain ⟨x, y⟩ := e
    unfold pushCanonEdge at hj
    dsimp only at hj
    by_cases hxy : x < y
    · rw [if_pos hxy, getD_modifyAt] at hj
      split_ifs at hj with hc
      · dsimp only at hj
        rcases List.mem_append.mp hj with hm | hm
        · exact h u j hm
        · simp at hm
          omega
      · exact h u j hj
    · rw [if_neg hxy, getD_modifyAt] at hj
      split_ifs at hj with hc
      · dsimp only at hj
        rcases List.mem_append.mp hj with hm | hm
        · exact h u j hm
        · simp at hm
          omega
      · exact h u j hj


/-- Claim C2, amended: pair enumeration does use the canonical ordering — every
entry `j` recorded under vertex `u` satisfies `u ≤ j` — but it does not
deduplicate: the number of entries recorded for the unordered pair `(u, v)`
equals the number of triangle edge slots whose canonical form is `(u, v)`,
so an edge shared by several triangles is stored once per occurrence (the
duplicates are later neutralized as stale self-pairs during contraction,
not suppressed at enumeration). -/
theorem C2_amended_canonical_with_multiplicity (sq : ℚ → ℚ) (prim : Primitive) (u v : ℕ)
    (hidx : prim.indices.all (fun k => decide (k < prim.attributes.length)) = true) :
    (((collectEdgePairs (simplifyQuadrics sq prim) prim.indices).getD u
          defaultVertex).pairs.count v
        = (edgeSlots prim.indices).countP (fun e => decide (canonPair e = (u, v)))) ∧
    ((collectEdgePairs (simplifyQuadrics sq prim) prim.indices).getD u
        defaultVertex).pairs.all (fun j => decide (u ≤ j)) = true := by
  have hidx' : ∀ k ∈ prim.indices, k < prim.attributes.length := by
    intro k hk
    simpa using List.all_eq_true.mp hidx k hk
  have hlen := length_simplifyQuadrics sq prim
  have hslots : ∀ e ∈ edgeSlots prim.indices,
      e.1 < (simplifyQuadrics sq prim).length ∧ e.2 < (simplifyQuadrics sq prim).length := by
    intro e he
    obtain ⟨m1, m2⟩ := edgeSlots_mem e he
    rw [hlen]
    exact ⟨hidx' _ m1, hidx' _ m2⟩
  constructor
  · unfold collectEdgePairs
    rw [count_collectFold (edgeSlots prim.indices) _ hslots u v, pairs_simplifyQuadrics]
    simp
  · rw [List.all_eq_true]
    intro j hj
    simp only [decide_eq_true_eq]
    unfold collectEdgePairs at hj
    refine pairs_le_pushFold (edgeSlots prim.indices) _ ?_ u j hj
    intro u' j' hj'
    rw [pairs_simplifyQuadrics] at hj'
    simp at hj'

/-- Witness for the amended C2: in `sharedEdgePrim`, vertex 0's pair list is
`[1, 2, 1, 3]` — the shared edge `{0, 1}` is stored twice, matching its two
edge-slot occurrences, and every entry respects the canonical ordering. -/
theorem C2_amended_canonical_with_multiplicity_witness :
    (sharedEdgePrim.indices.all
        (fun k => decide (k < sharedEdgePrim.attributes.length)) = true) ∧
    ((((collectEdgePairs (simplifyQuadrics sqrtStub sharedEdgePrim)
          sharedEdgePrim.indices).getD 0 defaultVertex).pairs.count 1
        = (edgeSlots sharedEdgePrim.indices).countP
            (fun e => decide (canonPair e = (0, 1)))) ∧
      ((collectEdgePairs (simplifyQuadrics sqrtStub sharedEdgePrim)
          sharedEdgePrim.indices).getD 0 defaultVertex).pairs.all
        (fun j => decide (0 ≤ j)) = true) :=
  ⟨by decide, C2_amended_canonical_with_multiplicity sqrtStub sharedEdgePrim 0 1 (by decide)⟩

end GltfSimplify
